import Mathlib

/-!
Shallow embedding of `src/utils.rs` from the round-optimal robust threshold
ECDSA repository.

Modelling conventions, mirroring how the source treats its external
collaborators:

* The secp256k1 scalar field `Zq` is modelled as `ZMod q` for a parameter
  `q` (the source obtains the fixed group order from the external `curv`
  crate; every line of the source is uniform in `q`).
* The elliptic-curve group is an additive commutative group `G` with a
  `ZMod q` scalar action (the curve group has order `q`, which is what makes
  `point * scalar` well defined); `G::generator()` becomes an explicit
  parameter wherever the source calls it.
* The class group of the external bicycl crate is a commutative monoid `C`:
  `compose` is `*`, `QFI::exp` is `^`, `cl.one()` is `1`, and `power_of_h`
  and `power_of_f` are the opaque functions of a `CLApi` bundle.  Every
  exponent the source passes is a non-negative integer: `Mpz::from` of a
  curve scalar yields its canonical representative in `[0, q)`, so
  `Mpz::from(&-&self.e)` is the representative of the mod-q negation, which
  is exactly how the source computes it, and is modelled by
  `(-e : ZMod q).val`.
* `BTreeMap<u8, V>` is a key-value list ordered by strictly increasing keys
  (`SMap`); iteration order is list order and `take_while` is literal.
* Randomness (`Zq::random`, `rng.random_mpz`) becomes explicit arguments.
* Rust panics (`unwrap` on `None`, indexing past the end of a vector or
  into a missing `BTreeMap` key) are modelled by `Option`, with `none`
  standing for a panic.
* The SHA-256 Fiat-Shamir challenge computations are opaque function
  parameters, since the hash is an external primitive.
-/

namespace RORTE

/-- Association list modelling `BTreeMap<u8, V>`; the `BTreeMap` key
invariant (strictly ascending keys) is the separate predicate
`SMap.Sorted`. -/
abbrev SMap (V : Type) := List (ℕ × V)

/-- `BTreeMap::get`. -/
def SMap.find {V : Type} : SMap V → ℕ → Option V
  | [], _ => none
  | e :: t, i => if e.1 = i then some e.2 else SMap.find t i

/-- The key set of a map. -/
def SMap.keys {V : Type} (m : SMap V) : List ℕ :=
  m.map Prod.fst

/-- Strictly increasing keys: what `BTreeMap` iteration guarantees. -/
abbrev SMap.Sorted {V : Type} (m : SMap V) : Prop :=
  m.Pairwise fun d e => d.1 < e.1

/-- `collect` of an iterator whose closure may panic (a failed lookup);
`none` propagates the panic. -/
def mapO {α β : Type} (f : α → Option β) : List α → Option (List β)
  | [] => some []
  | a :: as => (f a).bind fun b => (mapO f as).map fun bs => b :: bs

/-- Common body of `Polynomial::new`, `CurvePolynomial::new` and
`QFPolynomial::new`: a dense vector of length `degree + 1` filled from a
sparse map, entries with id beyond `degree` cut off by `take_while` over
the ascending iteration.  Every surviving write has index `≤ degree`, so
the `coeffs[id] = coeff` store never goes out of bounds. -/
def sparseFill {V : Type} (ident : V) (degree : ℕ) (m : SMap V) : List V :=
  (m.takeWhile fun e => decide (e.1 ≤ degree)).foldl
    (fun l e => l.set e.1 e.2) (List.replicate (degree + 1) ident)

/-- `Polynomial`: coefficients over `Zq` in ascending order. -/
structure Polynomial (q : ℕ) where
  coeffs : List (ZMod q)
deriving DecidableEq

/-- `Polynomial::new`. -/
def Polynomial.new {q : ℕ} (degree : ℕ) (m : SMap (ZMod q)) : Polynomial q :=
  ⟨sparseFill 0 degree m⟩

/-- `Polynomial::eval`: Horner, `result = result * x + coeffs[i]` for `i`
descending. -/
def Polynomial.eval {q : ℕ} (p : Polynomial q) (x : ZMod q) : ZMod q :=
  p.coeffs.foldr (fun c result => result * x + c) 0

/-- `CurvePolynomial`: coefficients that are curve points. -/
structure CurvePolynomial (G : Type) where
  coeffs : List G
deriving DecidableEq

/-- `CurvePolynomial::new`. -/
def CurvePolynomial.new {G : Type} [AddCommGroup G] (degree : ℕ)
    (m : SMap G) : CurvePolynomial G :=
  ⟨sparseFill 0 degree m⟩

/-- `CurvePolynomial::from_exp`. -/
def CurvePolynomial.from_exp {q : ℕ} {G : Type} [AddCommGroup G]
    [Module (ZMod q) G] (p : Polynomial q) (generator : G) :
    CurvePolynomial G :=
  ⟨p.coeffs.map fun x => x • generator⟩

/-- `CurvePolynomial::eval`: Horner with scalar multiplication. -/
def CurvePolynomial.eval {q : ℕ} {G : Type} [AddCommGroup G]
    [Module (ZMod q) G] (p : CurvePolynomial G) (x : ZMod q) : G :=
  p.coeffs.foldr (fun c result => x • result + c) 0

/-- `QFPolynomial`: coefficients in the class group. -/
structure QFPolynomial (C : Type) where
  coeffs : List C
deriving DecidableEq

/-- `QFPolynomial::new`; the identity coefficient is `cl.one()`. -/
def QFPolynomial.new {C : Type} [CommMonoid C] (degree : ℕ) (m : SMap C) :
    QFPolynomial C :=
  ⟨sparseFill 1 degree m⟩

/-- `QFPolynomial::eval`: Horner in the class group, exponentiate by the
canonical representative of `x` then compose. -/
def QFPolynomial.eval {q : ℕ} {C : Type} [CommMonoid C] (p : QFPolynomial C)
    (x : ZMod q) : C :=
  p.coeffs.foldr (fun c result => result ^ x.val * c) 1

/-- The operations the source calls on the external `CL_HSMqk` context:
`power_of_h` and `power_of_f` on non-negative integers. -/
structure CLApi (C : Type) where
  powH : ℕ → C
  powF : ℕ → C

/-- `CLMultiRecvCiphertext`. -/
structure CLMultiRecvCiphertext (C : Type) where
  randomness : C
  encryption : SMap C
deriving DecidableEq

/-- `CLMultiRecvCiphertext::new`; `r` is the randomness the source samples,
and a keyring lookup for a plaintext id that is absent would be a
`keyring[id]` panic. -/
def CLMultiRecvCiphertext.new {q : ℕ} {C : Type} [CommMonoid C]
    (cl : CLApi C) (keyring : SMap C) (plaintexts : SMap (ZMod q)) (r : ℕ) :
    Option (CLMultiRecvCiphertext C) :=
  (mapO (fun e => (SMap.find keyring e.1).map fun pk =>
      (e.1, cl.powF e.2.val * pk ^ r)) plaintexts).map
    fun encryption => ⟨cl.powH r, encryption⟩

/-- `PubParams`. -/
structure PubParams (C : Type) where
  cl : CLApi C
  t : ℕ
  n : ℕ
  keyring : SMap C

/-- `PvssDealing`. -/
structure PvssDealing (G C : Type) where
  curve_polynomial : CurvePolynomial G
  shares_ciphertext : CLMultiRecvCiphertext C
deriving DecidableEq

/-- `PvssNizk`; `z1` is an `Mpz`, always non-negative here since it is
`u1 + Mpz::from(&e) * r` with all three parts non-negative. -/
structure PvssNizk (q : ℕ) where
  e : ZMod q
  z1 : ℕ
  z2 : ZMod q
deriving DecidableEq

/-- `PvssDealing::new`; `coeffs` are the `t` sampled polynomial
coefficients and `r` the sampled encryption randomness. -/
def PvssDealing.new {q : ℕ} {G C : Type} [AddCommGroup G] [Module (ZMod q) G]
    [CommMonoid C] (pp : PubParams C) (coeffs : List (ZMod q)) (r : ℕ)
    (curve_generator : G) :
    Option (PvssDealing G C × ℕ × Polynomial q × SMap (ZMod q)) :=
  let poly : Polynomial q := ⟨coeffs⟩
  let shares : SMap (ZMod q) :=
    (List.range' 1 pp.n).map fun id => (id, poly.eval (id : ZMod q))
  let curve_polynomial := CurvePolynomial.from_exp poly curve_generator
  (CLMultiRecvCiphertext.new pp.cl pp.keyring shares r).map
    fun ct => (⟨curve_polynomial, ct⟩, r, poly, shares)

/-- `PvssNizk::prove`; `u1` and `u2` are the sampled nonces, `chal1` and
`chal2` the two SHA-256 challenge computations. -/
def PvssNizk.prove {q : ℕ} {G C : Type} [AddCommGroup G] [Module (ZMod q) G]
    [CommMonoid C]
    (chal1 : PubParams C → PvssDealing G C → G → ZMod q)
    (chal2 : ZMod q → C → G → C → ZMod q)
    (dealing : PvssDealing G C) (r : ℕ) (shares : SMap (ZMod q))
    (pp : PubParams C) (u1 : ℕ) (u2 : ZMod q) (curve_generator : G) :
    PvssNizk q :=
  let U1 := pp.cl.powH u1
  let U2 := u2 • curve_generator
  let gamma := chal1 pp dealing curve_generator
  let U3 := (QFPolynomial.new pp.n pp.keyring).eval gamma ^ u1 *
      pp.cl.powF u2.val
  let e := chal2 gamma U1 U2 U3
  ⟨e, u1 + e.val * r, u2 + (Polynomial.new pp.n shares).eval gamma * e⟩

/-- `PvssNizk::verify`.  Note the two exponents `(-e).val`: the source
negates the challenge inside `Zq` before converting to `Mpz`. -/
def PvssNizk.verify {q : ℕ} {G C : Type} [AddCommGroup G] [Module (ZMod q) G]
    [CommMonoid C]
    (chal1 : PubParams C → PvssDealing G C → G → ZMod q)
    (chal2 : ZMod q → C → G → C → ZMod q)
    (proof : PvssNizk q) (dealing : PvssDealing G C) (pp : PubParams C)
    (curve_generator : G) : Bool :=
  let gamma := chal1 pp dealing curve_generator
  let U1d := dealing.shares_ciphertext.randomness ^ (-proof.e).val
  let U1 := pp.cl.powH proof.z1 * U1d
  let shares_on_curve : SMap G :=
    (List.range' 1 pp.n).map fun id =>
      (id, dealing.curve_polynomial.eval (id : ZMod q))
  let shares_curve_poly := CurvePolynomial.new pp.n shares_on_curve
  let U2 := proof.z2 • curve_generator - proof.e • shares_curve_poly.eval gamma
  let U3d := (QFPolynomial.new pp.n dealing.shares_ciphertext.encryption).eval
      gamma ^ (-proof.e).val
  let U3 := (QFPolynomial.new pp.n pp.keyring).eval gamma ^ proof.z1 *
      pp.cl.powF proof.z2.val * U3d
  decide (proof.e = chal2 gamma U1 U2 U3)

/-- `JointPvssResult`. -/
structure JointPvssResult (G C : Type) where
  shares_ciphertext : CLMultiRecvCiphertext C
  curve_polynomial : CurvePolynomial G
  curve_macs : SMap G
deriving DecidableEq

/-- The `curve_coeffs[i] = curve_coeffs[i] + coeff` accumulation loop of
`JointPvssResult::new`: indexes `acc` at every position of `cs`, so a `cs`
longer than `acc` is an out-of-bounds panic (`none`). -/
def addInto {G : Type} [AddCommGroup G] : List G → List G → Option (List G)
  | acc, [] => some acc
  | [], _ :: _ => none
  | a :: acc, c :: cs => (addInto acc cs).map fun r => (a + c) :: r

/-- `iter().reduce(|acc, x| acc.compose(x))` followed by `unwrap`:
`none` on the empty list. -/
def reduceMul {C : Type} [CommMonoid C] : List C → Option C
  | [] => none
  | x :: xs => some (xs.foldl (· * ·) x)

/-- `iter().reduce(|acc, x| acc + x)` followed by `unwrap`. -/
def reduceAdd {G : Type} [AddCommGroup G] : List G → Option G
  | [] => none
  | x :: xs => some (xs.foldl (· + ·) x)

/-- `JointPvssResult::new`. -/
def JointPvssResult.new (q : ℕ) {G C : Type} [AddCommGroup G]
    [Module (ZMod q) G] [CommMonoid C] (pp : PubParams C)
    (dealings : List (PvssDealing G C)) : Option (JointPvssResult G C) :=
  (dealings.foldlM (fun acc d => addInto acc d.curve_polynomial.coeffs)
      (List.replicate pp.t (0 : G))).bind fun curve_coeffs =>
    (reduceMul (dealings.map fun d => d.shares_ciphertext.randomness)).bind
      fun randomness =>
        (mapO (fun id =>
            (reduceMul (dealings.map fun d =>
                (SMap.find d.shares_ciphertext.encryption id).getD 1)).map
              fun s => (id, s)) (List.range' 1 pp.n)).bind fun encryption =>
          (mapO (fun id =>
              (reduceAdd (dealings.map fun d =>
                  d.curve_polynomial.eval (id : ZMod q))).map
                fun s => (id, s)) (List.range' 1 pp.n)).map fun curve_macs =>
            ⟨⟨randomness, encryption⟩, ⟨curve_coeffs⟩, curve_macs⟩

/-- `MtaDealing`. -/
structure MtaDealing (G C : Type) where
  shares_ciphertext : CLMultiRecvCiphertext C
  curve_macs : SMap G
deriving DecidableEq

/-- `MtaDealing::new`; `rand` gives the fresh pairwise share drawn for each
id.  The `pairwise_shares[id]` indexings panic (`none`) when an id of
`pvss.curve_macs` is missing from the ciphertext key set. -/
def MtaDealing.new {q : ℕ} {G C : Type} [AddCommGroup G] [Module (ZMod q) G]
    [CommMonoid C] (pp : PubParams C) (pvss : JointPvssResult G C)
    (scalar : ZMod q) (curve_generator : G) (rand : ℕ → ZMod q) :
    Option (MtaDealing G C × SMap (ZMod q)) :=
  let randomness := pvss.shares_ciphertext.randomness ^ scalar.val
  let multienc := pvss.shares_ciphertext.encryption
  let pairwise_shares : SMap (ZMod q) :=
    multienc.map fun e => (e.1, rand e.1)
  (mapO (fun e => (SMap.find pairwise_shares e.1).map fun beta =>
      (e.1, e.2 ^ scalar.val * pp.cl.powF beta.val)) multienc).bind
    fun encryption =>
      (mapO (fun e => (SMap.find pairwise_shares e.1).map fun beta =>
          (e.1, scalar • e.2 + beta • curve_generator)) pvss.curve_macs).map
        fun curve_macs =>
          (⟨⟨randomness, encryption⟩, curve_macs⟩, pairwise_shares)

/-- `MtaNizk`. -/
structure MtaNizk (q : ℕ) where
  e : ZMod q
  z1 : ℕ
  z2 : ZMod q
deriving DecidableEq

/-- `MtaNizk::prove`; `base_point` models the fixed `G::generator()` the
source uses for `U1` (distinct from the `curve_generator` argument), and
`u1`, `u2` are the sampled nonces. -/
def MtaNizk.prove {q : ℕ} {G C : Type} [AddCommGroup G] [Module (ZMod q) G]
    [CommMonoid C]
    (mchal1 : PubParams C → JointPvssResult G C → MtaDealing G C → G → G →
      ZMod q)
    (mchal2 : ZMod q → G → C → C → G → ZMod q)
    (pp : PubParams C) (pvss_result : JointPvssResult G C)
    (mta_dealing : MtaDealing G C) (curve_generator : G) (u1 : ℕ)
    (u2 : ZMod q) (scalar : ZMod q) (pairwise_shares : SMap (ZMod q))
    (base_point : G) : MtaNizk q :=
  let gamma := mchal1 pp pvss_result mta_dealing curve_generator
      (scalar • curve_generator)
  let u1_modq : ZMod q := (u1 : ZMod q)
  let U1 := u1_modq • base_point
  let U2 := pvss_result.shares_ciphertext.randomness ^ u1
  let U3 := (QFPolynomial.new pp.n
      pvss_result.shares_ciphertext.encryption).eval gamma ^ u1 *
      pp.cl.powF u2.val
  let U4 := u1_modq • (CurvePolynomial.new pp.n
      pvss_result.curve_macs).eval gamma + u2 • curve_generator
  let e := mchal2 gamma U1 U2 U3 U4
  ⟨e, u1 + (e * scalar).val,
    (Polynomial.new pp.n pairwise_shares).eval gamma * e + u2⟩

/-- `MtaNizk::verify`; the same mod-q negation of the challenge appears in
the class-group exponents of `U2` and `U3`. -/
def MtaNizk.verify {q : ℕ} {G C : Type} [AddCommGroup G] [Module (ZMod q) G]
    [CommMonoid C]
    (mchal1 : PubParams C → JointPvssResult G C → MtaDealing G C → G → G →
      ZMod q)
    (mchal2 : ZMod q → G → C → C → G → ZMod q)
    (proof : MtaNizk q) (pp : PubParams C)
    (pvss_result : JointPvssResult G C) (mta_dealing : MtaDealing G C)
    (curve_generator : G) (scalar_pub : G) (base_point : G) : Bool :=
  let gamma := mchal1 pp pvss_result mta_dealing curve_generator scalar_pub
  let z1_modq : ZMod q := (proof.z1 : ZMod q)
  let U1 := z1_modq • base_point - proof.e • scalar_pub
  let U2 := pvss_result.shares_ciphertext.randomness ^ proof.z1 *
      mta_dealing.shares_ciphertext.randomness ^ (-proof.e).val
  let U3d := (QFPolynomial.new pp.n
      mta_dealing.shares_ciphertext.encryption).eval gamma ^ (-proof.e).val
  let U3 := (QFPolynomial.new pp.n
      pvss_result.shares_ciphertext.encryption).eval gamma ^ proof.z1 *
      pp.cl.powF proof.z2.val * U3d
  let U4 := proof.z2 • curve_generator +
      z1_modq • (CurvePolynomial.new pp.n pvss_result.curve_macs).eval gamma -
      proof.e • (CurvePolynomial.new pp.n mta_dealing.curve_macs).eval gamma
  decide (mchal2 gamma U1 U2 U3 U4 = proof.e)

/-- `DleqNizk`. -/
structure DleqNizk (q : ℕ) where
  e : ZMod q
  z : ZMod q
deriving DecidableEq

/-- `DleqNizk::prove`; `u` is the sampled nonce and `chal` the SHA-256
challenge. -/
def DleqNizk.prove {q : ℕ} {G : Type} [AddCommGroup G] [Module (ZMod q) G]
    (chal : G → G → G → G → G → G → ZMod q)
    (gen1 pow1 gen2 pow2 : G) (x u : ZMod q) : DleqNizk q :=
  ⟨chal gen1 pow1 gen2 pow2 (u • gen1) (u • gen2),
    u + chal gen1 pow1 gen2 pow2 (u • gen1) (u • gen2) * x⟩

/-- `DleqNizk::verify`. -/
def DleqNizk.verify {q : ℕ} {G : Type} [AddCommGroup G] [Module (ZMod q) G]
    (chal : G → G → G → G → G → G → ZMod q)
    (proof : DleqNizk q) (gen1 pow1 gen2 pow2 : G) : Bool :=
  decide (chal gen1 pow1 gen2 pow2
      (proof.z • gen1 - proof.e • pow1)
      (proof.z • gen2 - proof.e • pow2) = proof.e)

/-- The `Error<RecvErr, SendErr>` enum of the source, declared for the
round-1 transport failures. -/
inductive Error (RecvErr SendErr : Type) where
  | Round1Send (err : SendErr)
  | Round1Receive (err : RecvErr)

/-- Observable outcome of one run of the orchestration function: a panic,
or a returned `Result`. -/
inductive RunOutcome (E O : Type) where
  | panicked
  | returned (r : Except E O)

/-- `protocol_ni_dkg`, with the external transport made explicit: the
outcome of `outgoing.send(..)` and of `rounds.complete(round1)` are inputs,
and `combine` stands for the final `NiDkgOutput::from_combining` step.  The
source applies `.unwrap()` to both transport results, which is a panic on
the error branches. -/
def protocol_ni_dkg {SendErr RecvErr Msg O : Type} (myid : ℕ) (my_msg : Msg)
    (send_res : Except SendErr Unit) (recv_res : Except RecvErr (List Msg))
    (combine : List Msg → O) : RunOutcome (Error RecvErr SendErr) O :=
  match send_res with
  | .error _ => .panicked
  | .ok _ =>
    match recv_res with
    | .error _ => .panicked
    | .ok msgs =>
      .returned (.ok (combine (msgs.take myid ++ my_msg :: msgs.drop myid)))

/-- Concrete stand-in for the class group, used to evaluate the embedding
on explicit inputs: the subgroup of `ℤ × ZMod 5` generated by `h = (1, 0)`
(unknown large order in the real class group, infinite here) and
`f = (0, 1)` (order `q = 5`, as in the real scheme), written
multiplicatively. -/
structure CGrp where
  a : ℤ
  b : ZMod 5
deriving DecidableEq

instance : CommMonoid CGrp where
  mul x y := ⟨x.a + y.a, x.b + y.b⟩
  one := ⟨0, 0⟩
  mul_assoc x y z := by
    show CGrp.mk (x.a + y.a + z.a) (x.b + y.b + z.b) =
      CGrp.mk (x.a + (y.a + z.a)) (x.b + (y.b + z.b))
    rw [add_assoc, add_assoc]
  one_mul x := by
    show CGrp.mk (0 + x.a) (0 + x.b) = x
    rw [zero_add, zero_add]
  mul_one x := by
    show CGrp.mk (x.a + 0) (x.b + 0) = x
    rw [add_zero, add_zero]
  mul_comm x y := by
    show CGrp.mk (x.a + y.a) (x.b + y.b) = CGrp.mk (y.a + x.a) (y.b + x.b)
    rw [add_comm x.a y.a, add_comm x.b y.b]

instance : Fact (Nat.Prime 5) := ⟨by norm_num⟩

/-- Concrete `CL_HSMqk` interface over `CGrp`. -/
def cl5 : CLApi CGrp := ⟨fun k => ⟨(k : ℤ), 0⟩, fun k => ⟨0, (k : ZMod 5)⟩⟩

/-- Concrete public parameters with `t = 1`, `n = 1` and keyring
`{1 ↦ h ^ 3}`. -/
def pp5 : PubParams CGrp := ⟨cl5, 1, 1, [(1, ⟨3, 0⟩)]⟩

/-- Concrete public parameters with `t = 2`, `n = 1`. -/
def ppT2 : PubParams CGrp := ⟨cl5, 2, 1, [(1, ⟨3, 0⟩)]⟩

/-- Concrete public parameters with `t = 3`, `n = 1`. -/
def ppT3 : PubParams CGrp := ⟨cl5, 3, 1, [(1, ⟨3, 0⟩)]⟩

/-- A concrete dealing with a single curve coefficient. -/
def dealA : PvssDealing (ZMod 5) CGrp := ⟨⟨[1]⟩, ⟨⟨1, 0⟩, [(1, ⟨2, 0⟩)]⟩⟩

/-- A second concrete dealing. -/
def dealB : PvssDealing (ZMod 5) CGrp := ⟨⟨[2]⟩, ⟨⟨2, 0⟩, [(1, ⟨0, 1⟩)]⟩⟩

/-- A dealing whose curve polynomial has two coefficients. -/
def dealLong : PvssDealing (ZMod 5) CGrp :=
  ⟨⟨[1, 2]⟩, ⟨⟨1, 0⟩, [(1, ⟨2, 0⟩)]⟩⟩

/-- A concrete joint PVSS result over `CGrp`. -/
def jres5 : JointPvssResult (ZMod 5) CGrp :=
  ⟨⟨⟨1, 0⟩, [(1, ⟨1, 0⟩)]⟩, ⟨[1]⟩, [(1, 1)]⟩

/-- Concrete stand-in for the first PVSS challenge hash. -/
def chal1c : PubParams CGrp → PvssDealing (ZMod 5) CGrp → ZMod 5 → ZMod 5 :=
  fun _ _ _ => 1

/-- Concrete stand-in for the second PVSS challenge hash; it distinguishes
transcripts by their `U1` component, as a collision-free hash does. -/
def chal2c : ZMod 5 → CGrp → ZMod 5 → CGrp → ZMod 5 :=
  fun _ U1 _ _ => if U1 = 1 then 1 else 2

/-- Concrete stand-in for the first MtA challenge hash. -/
def mchal1c : PubParams CGrp → JointPvssResult (ZMod 5) CGrp →
    MtaDealing (ZMod 5) CGrp → ZMod 5 → ZMod 5 → ZMod 5 :=
  fun _ _ _ _ _ => 1

/-- Concrete stand-in for the second MtA challenge hash; it distinguishes
transcripts by their `U2` component. -/
def mchal2c : ZMod 5 → ZMod 5 → CGrp → CGrp → ZMod 5 → ZMod 5 :=
  fun _ _ U2 _ _ => if U2 = 1 then 1 else 2

/-- Concrete DLEQ challenge hash returning `1`. -/
def chalA : ZMod 5 → ZMod 5 → ZMod 5 → ZMod 5 → ZMod 5 → ZMod 5 → ZMod 5 :=
  fun _ _ _ _ _ _ => 1

/-- Concrete DLEQ challenge hash returning `2` (a reprogrammed oracle). -/
def chalB : ZMod 5 → ZMod 5 → ZMod 5 → ZMod 5 → ZMod 5 → ZMod 5 → ZMod 5 :=
  fun _ _ _ _ _ _ => 2

/-! Helper lemmas about the list and map combinators. -/

theorem mapO_congr {α β : Type} {f g : α → Option β} :
    ∀ {l : List α}, (∀ a ∈ l, f a = g a) → mapO f l = mapO g l
  | [], _ => rfl
  | a :: as, h => by
    simp only [mapO, h a (List.mem_cons_self a as),
      mapO_congr fun x hx => h x (List.mem_cons_of_mem a hx)]

theorem mapO_some {α β : Type} {f : α → Option β} {g : α → β} :
    ∀ {l : List α}, (∀ a ∈ l, f a = some (g a)) → mapO f l = some (l.map g)
  | [], _ => rfl
  | a :: as, h => by
    simp only [mapO, h a (List.mem_cons_self a as),
      mapO_some fun x hx => h x (List.mem_cons_of_mem a hx), Option.bind,
      Option.map, List.map]

theorem SMap.find_eq_none {V : Type} {i : ℕ} :
    ∀ {m : SMap V}, (∀ e ∈ m, e.1 ≠ i) → SMap.find m i = none
  | [], _ => rfl
  | e :: t, h => by
    simp only [SMap.find, if_neg (h e (List.mem_cons_self e t)),
      SMap.find_eq_none fun x hx => h x (List.mem_cons_of_mem e hx)]

theorem SMap.find_of_key_mem {V : Type} {i : ℕ} :
    ∀ {m : SMap V}, i ∈ m.keys → ∃ v, SMap.find m i = some v
  | [], h => by simp [SMap.keys] at h
  | e :: t, h => by
    by_cases he : e.1 = i
    · exact ⟨e.2, by simp [SMap.find, he]⟩
    · have ht : i ∈ SMap.keys t := by
        simp only [SMap.keys, List.map_cons, List.mem_cons] at h
        exact (h.resolve_left fun hh => he hh.symm)
      obtain ⟨v, hv⟩ := SMap.find_of_key_mem ht
      exact ⟨v, by simp [SMap.find, he, hv]⟩

theorem SMap.key_mem_of_mem {V : Type} {m : SMap V} {e : ℕ × V}
    (h : e ∈ m) : e.1 ∈ m.keys :=
  List.mem_map_of_mem Prod.fst h

theorem SMap.find_map {V W : Type} (g : ℕ → V → W) (i : ℕ) :
    ∀ (m : SMap V),
      SMap.find (m.map fun e => (e.1, g e.1 e.2)) i = (SMap.find m i).map (g i)
  | [] => rfl
  | e :: t => by
    by_cases he : e.1 = i
    · subst he; simp [SMap.find]
    · simp [SMap.find, he, SMap.find_map g i t]

theorem SMap.keys_map {V W : Type} (g : ℕ → V → W) (m : SMap V) :
    SMap.keys (m.map fun e => (e.1, g e.1 e.2)) = m.keys := by
  simp [SMap.keys, List.map_map, Function.comp]

/-! Lemmas about the coefficient accumulation loop of
`JointPvssResult::new`. -/

/-- Total version of `addInto`, defined on every pair of lengths by
dropping the excess of `cs`. -/
def padAdd {G : Type} [AddCommGroup G] : List G → List G → List G
  | acc, [] => acc
  | [], _ :: _ => []
  | a :: acc, c :: cs => (a + c) :: padAdd acc cs

theorem padAdd_nil {G : Type} [AddCommGroup G] (acc : List G) :
    padAdd acc [] = acc := by cases acc <;> rfl

theorem addInto_nil {G : Type} [AddCommGroup G] (acc : List G) :
    addInto acc [] = some acc := by cases acc <;> rfl

theorem padAdd_length {G : Type} [AddCommGroup G] :
    ∀ (acc cs : List G), (padAdd acc cs).length = acc.length
  | acc, [] => by rw [padAdd_nil]
  | [], _ :: _ => rfl
  | a :: acc, c :: cs => by simp [padAdd, padAdd_length acc cs]

theorem addInto_eq_padAdd {G : Type} [AddCommGroup G] :
    ∀ {acc cs : List G}, cs.length ≤ acc.length →
      addInto acc cs = some (padAdd acc cs)
  | acc, [], _ => by rw [addInto_nil, padAdd_nil]
  | [], _ :: _, h => by simp at h
  | a :: acc, c :: cs, h => by
    simp only [addInto, padAdd,
      addInto_eq_padAdd (Nat.le_of_succ_le_succ (by simpa using h)),
      Option.map]

theorem addInto_eq_none {G : Type} [AddCommGroup G] :
    ∀ {acc cs : List G}, acc.length < cs.length → addInto acc cs = none
  | _, [], h => by simp at h
  | [], _ :: _, _ => rfl
  | a :: acc, c :: cs, h => by
    simp only [addInto, addInto_eq_none
      (Nat.lt_of_succ_lt_succ (by simpa using h)), Option.map]

theorem addInto_length {G : Type} [AddCommGroup G] {acc cs r : List G}
    (h : addInto acc cs = some r) : r.length = acc.length := by
  rcases le_or_lt cs.length acc.length with hle | hlt
  · rw [addInto_eq_padAdd hle] at h
    cases h
    exact padAdd_length acc cs
  · rw [addInto_eq_none hlt] at h
    cases h

theorem padAdd_swap {G : Type} [AddCommGroup G] :
    ∀ (acc c1 c2 : List G),
      padAdd (padAdd acc c1) c2 = padAdd (padAdd acc c2) c1
  | acc, [], cs => by rw [padAdd_nil, padAdd_nil]
  | acc, c :: cs, [] => by rw [padAdd_nil, padAdd_nil]
  | [], _ :: _, _ :: _ => rfl
  | a :: acc, c :: cs, d :: ds => by
    simp only [padAdd, padAdd_swap acc cs ds, List.cons.injEq, and_true]
    rw [add_right_comm]

theorem addInto_bind_comm {G : Type} [AddCommGroup G] (acc c1 c2 : List G) :
    (addInto acc c1).bind (fun a => addInto a c2) =
      (addInto acc c2).bind fun a => addInto a c1 := by
  rcases le_or_lt c1.length acc.length with h1 | h1 <;>
    rcases le_or_lt c2.length acc.length with h2 | h2
  · rw [addInto_eq_padAdd h1, addInto_eq_padAdd h2, Option.some_bind,
      Option.some_bind,
      addInto_eq_padAdd ((padAdd_length acc c1).symm ▸ h2),
      addInto_eq_padAdd ((padAdd_length acc c2).symm ▸ h1),
      padAdd_swap]
  · rw [addInto_eq_none h2, addInto_eq_padAdd h1, Option.some_bind,
      Option.none_bind,
      addInto_eq_none ((padAdd_length acc c1).symm ▸ h2)]
  · rw [addInto_eq_none h1, addInto_eq_padAdd h2, Option.some_bind,
      Option.none_bind,
      addInto_eq_none ((padAdd_length acc c2).symm ▸ h1)]
  · rw [addInto_eq_none h1, addInto_eq_none h2, Option.none_bind,
      Option.none_bind]

/-! Lemmas relating `foldlM` over `Option` to a pure fold, and permutation
invariance of commutative folds. -/

theorem foldl_lift_none {α β : Type} (f : β → α → Option β) :
    ∀ (l : List α), l.foldl (fun o a => o.bind fun b => f b a) none = none
  | [] => rfl
  | a :: as => by
    simp only [List.foldl_cons, Option.none_bind, foldl_lift_none f as]

theorem foldlM_option {α β : Type} (f : β → α → Option β) :
    ∀ (l : List α) (init : β),
      l.foldlM f init =
        l.foldl (fun o a => o.bind fun b => f b a) (some init)
  | [], init => rfl
  | a :: as, init => by
    show (f init a).bind (fun b => List.foldlM f b as) =
      List.foldl (fun o a => o.bind fun b => f b a) (f init a) as
    cases h : f init a with
    | none =>
      rw [Option.none_bind, foldl_lift_none]
    | some b =>
      rw [Option.some_bind, foldlM_option f as b]

theorem foldl_perm {α β : Type} {f : β → α → β}
    (hc : ∀ b a1 a2, f (f b a1) a2 = f (f b a2) a1) {l1 l2 : List α}
    (h : l1.Perm l2) : ∀ (b : β), l1.foldl f b = l2.foldl f b := by
  induction h with
  | nil => exact fun _ => rfl
  | cons x _ ih =>
    intro b
    rw [List.foldl_cons, List.foldl_cons, ih]
  | swap x y l =>
    intro b
    simp only [List.foldl_cons]
    rw [hc]
  | trans _ _ ih1 ih2 =>
    intro b
    rw [ih1, ih2]

theorem foldlM_addInto_perm {α G : Type} [AddCommGroup G] (g : α → List G)
    {l1 l2 : List α} (h : l1.Perm l2) (init : List G) :
    l1.foldlM (fun acc a => addInto acc (g a)) init =
      l2.foldlM (fun acc a => addInto acc (g a)) init := by
  rw [foldlM_option, foldlM_option]
  refine foldl_perm (fun o a1 a2 => ?_) h (some init)
  cases o with
  | none => rfl
  | some acc =>
    simp only [Option.some_bind]
    exact addInto_bind_comm acc (g a1) (g a2)

theorem foldlM_addInto_some {α G : Type} [AddCommGroup G] (g : α → List G) :
    ∀ (l : List α) (init : List G), (∀ a ∈ l, (g a).length ≤ init.length) →
      ∃ r, l.foldlM (fun acc a => addInto acc (g a)) init = some r ∧
        r.length = init.length
  | [], init, _ => ⟨init, rfl, rfl⟩
  | a :: as, init, h => by
    have ha := addInto_eq_padAdd (h a (List.mem_cons_self a as))
    have hlen := padAdd_length init (g a)
    obtain ⟨r, hr, hrlen⟩ := foldlM_addInto_some g as (padAdd init (g a))
      fun x hx => hlen.symm ▸ h x (List.mem_cons_of_mem a hx)
    refine ⟨r, ?_, hrlen.trans hlen⟩
    show (addInto init (g a)).bind
      (fun b => List.foldlM (fun acc a => addInto acc (g a)) b as) = some r
    rw [ha, Option.some_bind, hr]

theorem foldlM_addInto_none {α G : Type} [AddCommGroup G] (g : α → List G) :
    ∀ {l : List α} {a : α}, a ∈ l → ∀ {init : List G},
      init.length < (g a).length →
      l.foldlM (fun acc x => addInto acc (g x)) init = none
  | [], a, ha, _, _ => absurd ha (List.not_mem_nil a)
  | x :: xs, a, ha, init, h => by
    show (addInto init (g x)).bind
      (fun b => List.foldlM (fun acc y => addInto acc (g y)) b xs) = none
    rcases List.mem_cons.mp ha with rfl | hxs
    · rw [addInto_eq_none h, Option.none_bind]
    · cases hx : addInto init (g x) with
      | none => rw [Option.none_bind]
      | some r =>
        rw [Option.some_bind]
        exact foldlM_addInto_none g hxs ((addInto_length hx).symm ▸ h)

/-! Lemmas about `reduceMul` and `reduceAdd`. -/

theorem foldl_mul_eq {C : Type} [CommMonoid C] :
    ∀ (xs : List C) (x : C), xs.foldl (· * ·) x = x * xs.prod
  | [], x => by simp
  | y :: ys, x => by
    rw [List.foldl_cons, foldl_mul_eq ys (x * y), List.prod_cons, mul_assoc]

theorem reduceMul_eq_prod {C : Type} [CommMonoid C] {l : List C}
    (h : l ≠ []) : reduceMul l = some l.prod := by
  cases l with
  | nil => exact absurd rfl h
  | cons x xs =>
    simp only [reduceMul, foldl_mul_eq, List.prod_cons]

theorem reduceMul_perm {C : Type} [CommMonoid C] {l1 l2 : List C}
    (h : l1.Perm l2) : reduceMul l1 = reduceMul l2 := by
  cases l1 with
  | nil =>
    rw [h.nil_eq.symm]
  | cons x xs =>
    have h2 : l2 ≠ [] := by
      intro hnil
      rw [hnil] at h
      exact List.cons_ne_nil x xs h.eq_nil
    rw [reduceMul_eq_prod (List.cons_ne_nil x xs), reduceMul_eq_prod h2,
      h.prod_eq]

theorem foldl_add_eq {G : Type} [AddCommGroup G] :
    ∀ (xs : List G) (x : G), xs.foldl (· + ·) x = x + xs.sum
  | [], x => by simp
  | y :: ys, x => by
    rw [List.foldl_cons, foldl_add_eq ys (x + y), List.sum_cons, add_assoc]

theorem reduceAdd_eq_sum {G : Type} [AddCommGroup G] {l : List G}
    (h : l ≠ []) : reduceAdd l = some l.sum := by
  cases l with
  | nil => exact absurd rfl h
  | cons x xs =>
    simp only [reduceAdd, foldl_add_eq, List.sum_cons]

theorem reduceAdd_perm {G : Type} [AddCommGroup G] {l1 l2 : List G}
    (h : l1.Perm l2) : reduceAdd l1 = reduceAdd l2 := by
  cases l1 with
  | nil =>
    rw [h.nil_eq.symm]
  | cons x xs =>
    have h2 : l2 ≠ [] := by
      intro hnil
      rw [hnil] at h
      exact List.cons_ne_nil x xs h.eq_nil
    rw [reduceAdd_eq_sum (List.cons_ne_nil x xs), reduceAdd_eq_sum h2,
      h.sum_eq]

/-! Lemmas about `List.set`, `takeWhile` and the shared `sparseFill`
body. -/

theorem length_foldl_set {V : Type} :
    ∀ (entries : SMap V) (init : List V),
      (entries.foldl (fun l e => l.set e.1 e.2) init).length = init.length
  | [], _ => rfl
  | e :: t, init => by
    rw [List.foldl_cons, length_foldl_set t, List.length_set]

theorem getD_set_self {V : Type} :
    ∀ (l : List V) (i : ℕ) (a d : V), i < l.length →
      (l.set i a).getD i d = a
  | [], i, a, d, h => absurd h (by simp)
  | x :: xs, 0, a, d, _ => rfl
  | x :: xs, i + 1, a, d, h => by
    show (xs.set i a).getD i d = a
    exact getD_set_self xs i a d (Nat.lt_of_succ_lt_succ h)

theorem getD_set_ne {V : Type} :
    ∀ (l : List V) (i j : ℕ) (a d : V), i ≠ j →
      (l.set i a).getD j d = l.getD j d
  | [], _, _, _, _, _ => rfl
  | x :: xs, 0, 0, a, d, h => absurd rfl h
  | x :: xs, 0, j + 1, a, d, _ => rfl
  | x :: xs, i + 1, 0, a, d, _ => rfl
  | x :: xs, i + 1, j + 1, a, d, h => by
    show (xs.set i a).getD j d = xs.getD j d
    exact getD_set_ne xs i j a d fun hh => h (by rw [hh])

theorem getD_replicate {V : Type} (a : V) :
    ∀ (n i : ℕ), (List.replicate n a).getD i a = a
  | 0, _ => rfl
  | _ + 1, 0 => rfl
  | n + 1, i + 1 => getD_replicate a n i

theorem foldl_set_getD {V : Type} :
    ∀ (entries : SMap V) (init : List V) (i : ℕ) (d : V),
      entries.Pairwise (fun x y => x.1 < y.1) →
      (∀ e ∈ entries, e.1 < init.length) →
      (entries.foldl (fun l e => l.set e.1 e.2) init).getD i d =
        (SMap.find entries i).getD (init.getD i d)
  | [], _, _, _, _, _ => rfl
  | e :: t, init, i, d, hp, hin => by
    have hhead := (List.pairwise_cons.mp hp).1
    have htail := (List.pairwise_cons.mp hp).2
    have hbound : ∀ x ∈ t, x.1 < (init.set e.1 e.2).length := by
      intro x hx
      rw [List.length_set]
      exact hin x (List.mem_cons_of_mem e hx)
    rw [List.foldl_cons, foldl_set_getD t (init.set e.1 e.2) i d htail hbound]
    by_cases he : e.1 = i
    · have hnone : SMap.find t i = none :=
        SMap.find_eq_none fun x hx => ne_of_gt (he ▸ hhead x hx)
      have hfind : SMap.find (e :: t) i = some e.2 := by
        simp [SMap.find, he]
      rw [hnone, hfind]
      show (init.set e.1 e.2).getD i d = e.2
      rw [he]
      exact getD_set_self init i e.2 d (he ▸ hin e (List.mem_cons_self e t))
    · have hfind : SMap.find (e :: t) i = SMap.find t i := by
        simp [SMap.find, he]
      rw [hfind, getD_set_ne init e.1 i e.2 d he]

theorem mem_takeWhile_pred {α : Type} {p : α → Bool} :
    ∀ {l : List α} {a : α}, a ∈ l.takeWhile p → p a = true
  | [], a, h => absurd h (List.not_mem_nil a)
  | x :: xs, a, h => by
    by_cases hx : p x = true
    · rw [List.takeWhile_cons, if_pos hx] at h
      rcases List.mem_cons.mp h with rfl | h2
      · exact hx
      · exact mem_takeWhile_pred h2
    · rw [List.takeWhile_cons, if_neg hx] at h
      exact absurd h (List.not_mem_nil a)

theorem takeWhile_eq_self_of {α : Type} {p : α → Bool} :
    ∀ {l : List α}, (∀ a ∈ l, p a = true) → l.takeWhile p = l
  | [], _ => rfl
  | x :: xs, h => by
    rw [List.takeWhile_cons, if_pos (h x (List.mem_cons_self x xs)),
      takeWhile_eq_self_of fun a ha => h a (List.mem_cons_of_mem x ha)]

theorem find_takeWhile {V : Type} {d i : ℕ} (hi : i ≤ d) :
    ∀ {m : SMap V}, m.Sorted →
      SMap.find (m.takeWhile fun e => decide (e.1 ≤ d)) i = SMap.find m i
  | [], _ => rfl
  | e :: t, hp => by
    have hhead := (List.pairwise_cons.mp hp).1
    have htail := (List.pairwise_cons.mp hp).2
    by_cases he : e.1 ≤ d
    · rw [List.takeWhile_cons, if_pos (by simpa using he)]
      show (if e.1 = i then some e.2 else _) = if e.1 = i then some e.2 else _
      by_cases hei : e.1 = i
      · rw [if_pos hei, if_pos hei]
      · rw [if_neg hei, if_neg hei, find_takeWhile hi htail]
    · rw [List.takeWhile_cons, if_neg (by simpa using he)]
      have hd : d < e.1 := Nat.lt_of_not_le he
      have hei : e.1 ≠ i := fun hh => he (hh ▸ hi)
      have h1 : SMap.find (e :: t) i = SMap.find t i := by
        show (if e.1 = i then some e.2 else SMap.find t i) = SMap.find t i
        rw [if_neg hei]
      have h2 : SMap.find t i = none :=
        SMap.find_eq_none fun x hx =>
          ne_of_gt (Nat.lt_of_le_of_lt hi (Nat.lt_trans hd (hhead x hx)))
      rw [h1, h2]
      rfl

theorem takeWhile_eq_filter {V : Type} {d : ℕ} :
    ∀ {m : SMap V}, m.Sorted →
      (m.takeWhile fun e => decide (e.1 ≤ d)) =
        m.filter fun e => decide (e.1 ≤ d)
  | [], _ => rfl
  | e :: t, hp => by
    have hhead := (List.pairwise_cons.mp hp).1
    have htail := (List.pairwise_cons.mp hp).2
    by_cases he : e.1 ≤ d
    · rw [List.takeWhile_cons, if_pos (by simpa using he),
        List.filter_cons_of_pos (by simpa using he),
        takeWhile_eq_filter htail]
    · have hd : d < e.1 := Nat.lt_of_not_le he
      rw [List.takeWhile_cons, if_neg (by simpa using he),
        List.filter_cons_of_neg (by simpa using he)]
      have : ∀ x ∈ t, ¬((fun e : ℕ × V => decide (e.1 ≤ d)) x = true) := by
        intro x hx
        simp only [decide_eq_true_eq]
        exact Nat.not_le_of_lt (Nat.lt_trans hd (hhead x hx))
      exact (List.filter_eq_nil_iff.mpr this).symm

theorem sparseFill_length {V : Type} (ident : V) (d : ℕ) (m : SMap V) :
    (sparseFill ident d m).length = d + 1 := by
  rw [sparseFill, length_foldl_set, List.length_replicate]

theorem sparseFill_getD {V : Type} (ident : V) {d i : ℕ} {m : SMap V}
    (hs : m.Sorted) (hi : i ≤ d) :
    (sparseFill ident d m).getD i ident = (SMap.find m i).getD ident := by
  have hsub : (m.takeWhile fun e => decide (e.1 ≤ d)).Pairwise
      (fun x y : ℕ × V => x.1 < y.1) :=
    List.Pairwise.sublist (List.takeWhile_sublist _) hs
  have hbound : ∀ e ∈ m.takeWhile fun e => decide (e.1 ≤ d),
      e.1 < (List.replicate (d + 1) ident).length := by
    intro e he
    rw [List.length_replicate]
    exact Nat.lt_succ_of_le (by simpa using mem_takeWhile_pred he)
  rw [sparseFill, foldl_set_getD _ _ _ _ hsub hbound, find_takeWhile hi hs,
    getD_replicate]

theorem sparseFill_filter {V : Type} (ident : V) (d : ℕ) {m : SMap V}
    (hs : m.Sorted) :
    sparseFill ident d (m.filter fun e => decide (e.1 ≤ d)) =
      sparseFill ident d m := by
  rw [sparseFill, sparseFill, takeWhile_eq_filter hs,
    takeWhile_eq_self_of fun a ha => (List.mem_filter.mp ha).2]

/-! Horner evaluation unfolding and linearity. -/

theorem polyEval_nil {q : ℕ} (x : ZMod q) :
    Polynomial.eval ⟨[]⟩ x = 0 := rfl

theorem polyEval_cons {q : ℕ} (c : ZMod q) (cs : List (ZMod q))
    (x : ZMod q) :
    Polynomial.eval ⟨c :: cs⟩ x = Polynomial.eval ⟨cs⟩ x * x + c := rfl

theorem curveEval_nil {q : ℕ} {G : Type} [AddCommGroup G]
    [Module (ZMod q) G] (x : ZMod q) :
    CurvePolynomial.eval (⟨[]⟩ : CurvePolynomial G) x = 0 := rfl

theorem curveEval_cons {q : ℕ} {G : Type} [AddCommGroup G]
    [Module (ZMod q) G] (c : G) (cs : List G) (x : ZMod q) :
    CurvePolynomial.eval ⟨c :: cs⟩ x =
      x • CurvePolynomial.eval ⟨cs⟩ x + c := rfl

theorem qfEval_nil {q : ℕ} {C : Type} [CommMonoid C]
    (x : ZMod q) : QFPolynomial.eval (⟨[]⟩ : QFPolynomial C) x = 1 := rfl

theorem qfEval_cons {q : ℕ} {C : Type} [CommMonoid C] (c : C)
    (cs : List C) (x : ZMod q) :
    QFPolynomial.eval ⟨c :: cs⟩ x =
      QFPolynomial.eval ⟨cs⟩ x ^ x.val * c := rfl

theorem eval_zip_zq {q : ℕ} (x : ZMod q) :
    ∀ (l1 l2 : List (ZMod q)), l1.length = l2.length →
      Polynomial.eval ⟨List.zipWith (· + ·) l1 l2⟩ x =
        Polynomial.eval ⟨l1⟩ x + Polynomial.eval ⟨l2⟩ x
  | [], [], _ => by rw [List.zipWith_nil_right, polyEval_nil, add_zero]
  | [], b :: l2, h => by simp at h
  | a :: l1, [], h => by simp at h
  | a :: l1, b :: l2, h => by
    rw [List.zipWith_cons_cons, polyEval_cons, polyEval_cons,
      polyEval_cons, eval_zip_zq x l1 l2 (by simpa using h)]
    ring

theorem eval_zip_curve {q : ℕ} {G : Type} [AddCommGroup G]
    [Module (ZMod q) G] (x : ZMod q) :
    ∀ (l1 l2 : List G), l1.length = l2.length →
      CurvePolynomial.eval ⟨List.zipWith (· + ·) l1 l2⟩ x =
        CurvePolynomial.eval ⟨l1⟩ x + CurvePolynomial.eval ⟨l2⟩ x
  | [], [], _ => by
    rw [List.zipWith_nil_right, curveEval_nil, add_zero]
  | [], b :: l2, h => by simp at h
  | a :: l1, [], h => by simp at h
  | a :: l1, b :: l2, h => by
    rw [List.zipWith_cons_cons, curveEval_cons,
      curveEval_cons, curveEval_cons,
      eval_zip_curve x l1 l2 (by simpa using h), smul_add]
    abel

theorem eval_zip_qf {q : ℕ} {C : Type} [CommMonoid C] (x : ZMod q) :
    ∀ (l1 l2 : List C), l1.length = l2.length →
      QFPolynomial.eval ⟨List.zipWith (· * ·) l1 l2⟩ x =
        QFPolynomial.eval ⟨l1⟩ x * QFPolynomial.eval ⟨l2⟩ x
  | [], [], _ => by rw [List.zipWith_nil_right, qfEval_nil, mul_one]
  | [], b :: l2, h => by simp at h
  | a :: l1, [], h => by simp at h
  | a :: l1, b :: l2, h => by
    rw [List.zipWith_cons_cons, qfEval_cons, qfEval_cons,
      qfEval_cons, eval_zip_qf x l1 l2 (by simpa using h), mul_pow,
      mul_mul_mul_comm]

/-! Behaviour of `JointPvssResult::new`. -/

theorem joint_new_nil (q : ℕ) {G C : Type} [AddCommGroup G]
    [Module (ZMod q) G] [CommMonoid C] (pp : PubParams C) :
    JointPvssResult.new q pp ([] : List (PvssDealing G C)) = none := rfl

theorem joint_new_isSome (q : ℕ) {G C : Type} [AddCommGroup G]
    [Module (ZMod q) G] [CommMonoid C] (pp : PubParams C)
    {dealings : List (PvssDealing G C)} (hne : dealings ≠ [])
    (hlen : ∀ d ∈ dealings, d.curve_polynomial.coeffs.length ≤ pp.t) :
    (JointPvssResult.new q pp dealings).isSome = true := by
  have hmap : ∀ {β : Type} (f : PvssDealing G C → β), dealings.map f ≠ [] := by
    intro β f hmape
    exact hne (List.map_eq_nil_iff.mp hmape)
  obtain ⟨cc, hcc0, _⟩ := foldlM_addInto_some
    (fun d : PvssDealing G C => d.curve_polynomial.coeffs) dealings
    (List.replicate pp.t (0 : G))
    (fun a ha => by rw [List.length_replicate]; exact hlen a ha)
  have hcc : dealings.foldlM
      (fun acc d => addInto acc d.curve_polynomial.coeffs)
      (List.replicate pp.t (0 : G)) = some cc := hcc0
  have hr : reduceMul (dealings.map fun d => d.shares_ciphertext.randomness) =
      some (dealings.map fun d => d.shares_ciphertext.randomness).prod :=
    reduceMul_eq_prod (hmap _)
  have henc : mapO (fun id =>
      (reduceMul (dealings.map fun d =>
          (SMap.find d.shares_ciphertext.encryption id).getD 1)).map
        fun s => (id, s)) (List.range' 1 pp.n) =
      some ((List.range' 1 pp.n).map fun id =>
        (id, (dealings.map fun d =>
          (SMap.find d.shares_ciphertext.encryption id).getD 1).prod)) :=
    mapO_some fun id _ => by rw [reduceMul_eq_prod (hmap _)]; rfl
  have hmac : mapO (fun id =>
      (reduceAdd (dealings.map fun d =>
          d.curve_polynomial.eval (id : ZMod q))).map
        fun s => (id, s)) (List.range' 1 pp.n) =
      some ((List.range' 1 pp.n).map fun id =>
        (id, (dealings.map fun d =>
          d.curve_polynomial.eval (id : ZMod q)).sum)) :=
    mapO_some fun id _ => by rw [reduceAdd_eq_sum (hmap _)]; rfl
  simp only [JointPvssResult.new, hcc, Option.some_bind, hr, henc, hmac]
  rfl

theorem joint_new_long (q : ℕ) {G C : Type} [AddCommGroup G]
    [Module (ZMod q) G] [CommMonoid C] (pp : PubParams C)
    {dealings : List (PvssDealing G C)} {d : PvssDealing G C}
    (hd : d ∈ dealings) (hlen : pp.t < d.curve_polynomial.coeffs.length) :
    JointPvssResult.new q pp dealings = none := by
  have h : dealings.foldlM
      (fun acc d => addInto acc d.curve_polynomial.coeffs)
      (List.replicate pp.t (0 : G)) = none :=
    foldlM_addInto_none (fun d : PvssDealing G C => d.curve_polynomial.coeffs)
      hd (by rw [List.length_replicate]; exact hlen)
  simp only [JointPvssResult.new, h, Option.none_bind]

/-! Claim theorems. -/

/-- C1: the claim states that `PvssNizk::verify` returns true on any proof
honestly produced by `PvssNizk::prove` for a dealing from
`PvssDealing::new`.  The code fails this: the verifier raises the
ciphertext randomness (and the ciphertext polynomial evaluation) to
`Mpz::from(&-&self.e)`, the mod-q negation of the challenge, inside the
class group, whose elements do not have order dividing `q`; the recomputed
commitment is `U1 * h ^ (q * r)` instead of `U1`, so the challenge check
fails.  This theorem evaluates the embedded code on a concrete honest run
(polynomial `[2]`, randomness `r = 1`, nonces `u1 = u2 = 0`, class group
`CGrp` where `h` has infinite order, challenge hash distinguishing the
`U1` components): verification returns `false`. -/
theorem pvss_honest_verify_fails :
    (PvssDealing.new pp5 [2] 1 (1 : ZMod 5)).map
      (fun w => PvssNizk.verify chal1c chal2c
        (PvssNizk.prove chal1c chal2c w.1 w.2.1 w.2.2.2 pp5 0 0 1)
        w.1 pp5 1) = some false := by decide

/-- C9: the claim states that with `curve_generator = G::generator()` and
`scalar_pub = curve_generator * scalar`, `MtaNizk::verify` accepts a proof
honestly produced by `MtaNizk::prove`.  The code fails this for the same
reason as the PVSS proof: `verify` raises the MtA ciphertext randomness
and polynomial evaluation to the mod-q negation of the challenge inside
the class group, so the recomputed `U2` is `U2 * R ^ (q * k)` instead of
`U2`.  This theorem evaluates the embedded code on a concrete honest run
with `curve_generator = base point = 1`, `scalar = 1`,
`scalar_pub = scalar • curve_generator`: verification returns `false`. -/
theorem mta_honest_verify_fails :
    (MtaDealing.new pp5 jres5 (1 : ZMod 5) (1 : ZMod 5) (fun _ => 0)).map
      (fun w => MtaNizk.verify mchal1c mchal2c
        (MtaNizk.prove mchal1c mchal2c pp5 jres5 w.1 1 0 0 1 w.2 1)
        pp5 jres5 w.1 1 1 1) = some false := by decide

/-- C2 counterexample: the claim states that for every dealing list of
length less than `t` the caller of `JointPvssResult::new` receives a
distinguishable error signal instead of a combined sharing.  Here a list
of one dealing with `t = 2` produces a combined sharing (`isSome`), with
no error signal of any kind. -/
theorem joint_pvss_accepts_below_threshold :
    [dealA].length < ppT2.t ∧
      (JointPvssResult.new 5 ppT2 [dealA]).isSome = true := by
  exact ⟨by decide, by decide⟩

/-- C2 amended: `JointPvssResult::new` performs no threshold check at all:
for every non-empty dealing list whose curve polynomials have at most `t`
coefficients it returns a combined sharing, regardless of whether the list
length reaches `t`; the only failure is a panic (empty list, or an
oversized polynomial), never an error value. -/
theorem joint_pvss_no_threshold_check (q : ℕ) {G C : Type} [AddCommGroup G]
    [Module (ZMod q) G] [CommMonoid C] (pp : PubParams C)
    (dealings : List (PvssDealing G C)) (hne : dealings ≠ [])
    (hlen : ∀ d ∈ dealings, d.curve_polynomial.coeffs.length ≤ pp.t) :
    (JointPvssResult.new q pp dealings).isSome = true :=
  joint_new_isSome q pp hne hlen

/-- Witness for the C2 amended claim at a concrete input with `t = 3` and
a single dealing. -/
theorem joint_pvss_no_threshold_check_w :
    (JointPvssResult.new 5 ppT3 [dealA]).isSome = true :=
  joint_pvss_no_threshold_check 5 ppT3 [dealA] (by decide) (by decide)

/-- C3: `JointPvssResult::new` is deterministic (it is a pure function of
its arguments in this embedding, randomness-free) and order-independent:
permuted dealing lists give equal results — equal combined curve
polynomials, equal combined ciphertexts (randomness and every per-id
component) and equal per-id curve MAC maps, since the whole `Option`
results coincide. -/
theorem joint_pvss_perm_invariant (q : ℕ) {G C : Type} [AddCommGroup G]
    [Module (ZMod q) G] [CommMonoid C] (pp : PubParams C)
    {l1 l2 : List (PvssDealing G C)} (h : l1.Perm l2) :
    JointPvssResult.new q pp l1 = JointPvssResult.new q pp l2 := by
  have h1 : l1.foldlM (fun acc d => addInto acc d.curve_polynomial.coeffs)
        (List.replicate pp.t (0 : G)) =
      l2.foldlM (fun acc d => addInto acc d.curve_polynomial.coeffs)
        (List.replicate pp.t (0 : G)) :=
    foldlM_addInto_perm (fun d : PvssDealing G C => d.curve_polynomial.coeffs)
      h (List.replicate pp.t (0 : G))
  have h2 : reduceMul (l1.map fun d => d.shares_ciphertext.randomness) =
      reduceMul (l2.map fun d => d.shares_ciphertext.randomness) :=
    reduceMul_perm (h.map _)
  have h3 : ∀ j : ℕ,
      reduceMul (l1.map fun d =>
        (SMap.find d.shares_ciphertext.encryption j).getD 1) =
      reduceMul (l2.map fun d =>
        (SMap.find d.shares_ciphertext.encryption j).getD 1) :=
    fun j => reduceMul_perm (h.map _)
  have h4 : ∀ j : ℕ,
      reduceAdd (l1.map fun d => d.curve_polynomial.eval (j : ZMod q)) =
      reduceAdd (l2.map fun d => d.curve_polynomial.eval (j : ZMod q)) :=
    fun j => reduceAdd_perm (h.map _)
  simp only [JointPvssResult.new, h1, h2, h3, h4]

/-- Witness for C3 at two concrete two-element lists that are permutations
of each other. -/
theorem joint_pvss_perm_invariant_w :
    JointPvssResult.new 5 pp5 [dealA, dealB] =
      JointPvssResult.new 5 pp5 [dealB, dealA] :=
  joint_pvss_perm_invariant 5 pp5 (List.Perm.swap dealB dealA [])

/-- C10: panic behaviour of `JointPvssResult::new`: the empty dealing list
panics (`unwrap` of an empty reduce); every non-empty list whose curve
polynomials have at most `t` coefficients returns normally; a dealing with
more than `t` coefficients panics on the out-of-bounds
`curve_coeffs[i]`. -/
theorem joint_pvss_panic_conditions (q : ℕ) {G C : Type} [AddCommGroup G]
    [Module (ZMod q) G] [CommMonoid C] (pp : PubParams C)
    (dealings : List (PvssDealing G C)) :
    JointPvssResult.new q pp ([] : List (PvssDealing G C)) = none ∧
      (dealings ≠ [] →
        (∀ d ∈ dealings, d.curve_polynomial.coeffs.length ≤ pp.t) →
        (JointPvssResult.new q pp dealings).isSome = true) ∧
      (∀ d ∈ dealings, pp.t < d.curve_polynomial.coeffs.length →
        JointPvssResult.new q pp dealings = none) :=
  ⟨joint_new_nil q pp, fun hne hlen => joint_new_isSome q pp hne hlen,
    fun _ hd hlen => joint_new_long q pp hd hlen⟩

/-- Witness for C10 at concrete inputs: the empty list, a well-sized
single dealing, and a single dealing with two coefficients against
`t = 1`. -/
theorem joint_pvss_panic_conditions_w :
    JointPvssResult.new 5 pp5 ([] : List (PvssDealing (ZMod 5) CGrp)) =
        none ∧
      (JointPvssResult.new 5 pp5 [dealA]).isSome = true ∧
      JointPvssResult.new 5 pp5 [dealLong] = none :=
  ⟨(joint_pvss_panic_conditions 5 pp5 [dealA]).1,
    (joint_pvss_panic_conditions 5 pp5 [dealA]).2.1 (by decide) (by decide),
    (joint_pvss_panic_conditions 5 pp5 [dealLong]).2.2 dealLong (by decide)
      (by decide)⟩

/-- C5: the claim states that a transport send or receive failure during
the round is surfaced to the caller of `protocol_ni_dkg` as the declared
`Error::Round1Send` or `Error::Round1Receive` result rather than a panic.
The code instead calls `.unwrap()` on both transport results, so either
failure is a panic; the `Error` variants are declared but never
constructed.  This theorem evaluates the embedded orchestration on a
failing send and on a failing receive: both runs panic instead of
returning `Except.error (Error.Round1Send _)` or
`Except.error (Error.Round1Receive _)`. -/
theorem protocol_ni_dkg_transport_panics :
    protocol_ni_dkg 0 () (Except.error () : Except Unit Unit)
        (Except.ok [] : Except Unit (List Unit)) (fun _ => ()) =
        RunOutcome.panicked ∧
      protocol_ni_dkg 0 () (Except.ok () : Except Unit Unit)
        (Except.error () : Except Unit (List Unit)) (fun _ => ()) =
        RunOutcome.panicked :=
  ⟨rfl, rfl⟩

/-- C4: `MtaDealing::new` rescales and masks: on any `JointPvssResult`
whose MAC ids all appear in the ciphertext (the data-model invariant; a
violation is a `pairwise_shares[id]` panic), the resulting ciphertext
randomness is the input randomness raised to the scalar, each per-id
component is the input component raised to the scalar composed with
`power_of_f` of the fresh pairwise share of that id, each per-id curve MAC
is `scalar • mac + pairwise_share • generator`, and the returned
pairwise-share map has the same id set as the input ciphertext components
(mapping each id to its fresh share). -/
theorem mta_dealing_spec (q : ℕ) {G C : Type} [AddCommGroup G]
    [Module (ZMod q) G] [CommMonoid C] (pp : PubParams C)
    (pvss : JointPvssResult G C) (scalar : ZMod q) (curve_generator : G)
    (rand : ℕ → ZMod q)
    (hkeys : ∀ j ∈ SMap.keys pvss.curve_macs,
      j ∈ SMap.keys pvss.shares_ciphertext.encryption) :
    ∃ dl pw,
      MtaDealing.new pp pvss scalar curve_generator rand = some (dl, pw) ∧
      dl.shares_ciphertext.randomness =
        pvss.shares_ciphertext.randomness ^ scalar.val ∧
      (∀ j E, SMap.find pvss.shares_ciphertext.encryption j = some E →
        SMap.find dl.shares_ciphertext.encryption j =
          some (E ^ scalar.val * pp.cl.powF (rand j).val)) ∧
      (∀ j mac, SMap.find pvss.curve_macs j = some mac →
        SMap.find dl.curve_macs j =
          some (scalar • mac + rand j • curve_generator)) ∧
      SMap.keys pw = SMap.keys pvss.shares_ciphertext.encryption ∧
      (∀ j ∈ SMap.keys pw, SMap.find pw j = some (rand j)) := by
  have hpw : ∀ j : ℕ,
      SMap.find (pvss.shares_ciphertext.encryption.map fun e =>
        (e.1, rand e.1)) j =
        (SMap.find pvss.shares_ciphertext.encryption j).map fun _ => rand j :=
    fun j =>
      SMap.find_map (fun k _ => rand k) j pvss.shares_ciphertext.encryption
  have hfind : ∀ j ∈ SMap.keys pvss.shares_ciphertext.encryption,
      SMap.find (pvss.shares_ciphertext.encryption.map fun e =>
        (e.1, rand e.1)) j = some (rand j) := by
    intro j hj
    obtain ⟨v, hv⟩ := SMap.find_of_key_mem hj
    rw [hpw j, hv]
    rfl
  have henc : mapO (fun e =>
      (SMap.find (pvss.shares_ciphertext.encryption.map fun e =>
        (e.1, rand e.1)) e.1).map fun beta =>
        (e.1, e.2 ^ scalar.val * pp.cl.powF beta.val))
      pvss.shares_ciphertext.encryption =
      some (pvss.shares_ciphertext.encryption.map fun e =>
        (e.1, e.2 ^ scalar.val * pp.cl.powF (rand e.1).val)) :=
    mapO_some fun e he => by
      rw [hfind e.1 (SMap.key_mem_of_mem he)]
      rfl
  have hmac : mapO (fun e =>
      (SMap.find (pvss.shares_ciphertext.encryption.map fun e =>
        (e.1, rand e.1)) e.1).map fun beta =>
        (e.1, scalar • e.2 + beta • curve_generator)) pvss.curve_macs =
      some (pvss.curve_macs.map fun e =>
        (e.1, scalar • e.2 + rand e.1 • curve_generator)) :=
    mapO_some fun e he => by
      rw [hfind e.1 (hkeys e.1 (SMap.key_mem_of_mem he))]
      rfl
  have hkeq : SMap.keys (pvss.shares_ciphertext.encryption.map fun e =>
      (e.1, rand e.1)) = SMap.keys pvss.shares_ciphertext.encryption :=
    SMap.keys_map (fun k _ => rand k) pvss.shares_ciphertext.encryption
  refine ⟨⟨⟨pvss.shares_ciphertext.randomness ^ scalar.val,
      pvss.shares_ciphertext.encryption.map fun e =>
        (e.1, e.2 ^ scalar.val * pp.cl.powF (rand e.1).val)⟩,
      pvss.curve_macs.map fun e =>
        (e.1, scalar • e.2 + rand e.1 • curve_generator)⟩,
    pvss.shares_ciphertext.encryption.map fun e => (e.1, rand e.1),
    ?_, rfl, ?_, ?_, hkeq, ?_⟩
  · simp only [MtaDealing.new]
    rw [henc, Option.some_bind, hmac]
    rfl
  · intro j E hE
    have h3 : SMap.find (pvss.shares_ciphertext.encryption.map fun e =>
        (e.1, e.2 ^ scalar.val * pp.cl.powF (rand e.1).val)) j =
        (SMap.find pvss.shares_ciphertext.encryption j).map fun v =>
          v ^ scalar.val * pp.cl.powF (rand j).val :=
      SMap.find_map (fun k v => v ^ scalar.val * pp.cl.powF (rand k).val) j
        pvss.shares_ciphertext.encryption
    rw [h3, hE]
    rfl
  · intro j mac hmacj
    have h4 : SMap.find (pvss.curve_macs.map fun e =>
        (e.1, scalar • e.2 + rand e.1 • curve_generator)) j =
        (SMap.find pvss.curve_macs j).map fun v =>
          scalar • v + rand j • curve_generator :=
      SMap.find_map (fun k v => scalar • v + rand k • curve_generator) j
        pvss.curve_macs
    rw [h4, hmacj]
    rfl
  · intro j hj
    rw [hkeq] at hj
    exact hfind j hj

/-- Witness for C4 at a concrete input, exercised through the theorem. -/
theorem mta_dealing_spec_w :
    (MtaDealing.new pp5 jres5 (2 : ZMod 5) (1 : ZMod 5)
      (fun _ => 3)).isSome = true := by
  obtain ⟨dl, pw, hnew, _⟩ :=
    mta_dealing_spec 5 pp5 jres5 2 1 (fun _ => 3) (by decide)
  rw [hnew]
  rfl

/-- C6: the DLEQ proof accepts exactly the honest relation.  Completeness:
`verify` accepts every proof produced by `prove` on `pow1 = x • gen1`,
`pow2 = x • gen2`.  The probabilistic converse ("except with negligible
probability over the hash, accepted statements share one exponent") is
rendered deterministically as Fiat-Shamir special soundness: from two
accepting proofs for the same statement under two challenge oracles, with
distinct challenges but identical recomputed commitments, a single
exponent `w` with `pow1 = w • gen1` and `pow2 = w • gen2` is extracted. -/
theorem dleq_complete_and_sound (q : ℕ) [Fact (Nat.Prime q)] {G : Type}
    [AddCommGroup G] [Module (ZMod q) G]
    (chal chal' : G → G → G → G → G → G → ZMod q) (gen1 gen2 pow1 pow2 : G)
    (x u : ZMod q) (pf pf' : DleqNizk q) :
    DleqNizk.verify chal (DleqNizk.prove chal gen1 (x • gen1) gen2
        (x • gen2) x u) gen1 (x • gen1) gen2 (x • gen2) = true ∧
      (DleqNizk.verify chal pf gen1 pow1 gen2 pow2 = true →
        DleqNizk.verify chal' pf' gen1 pow1 gen2 pow2 = true →
        pf.e ≠ pf'.e →
        pf.z • gen1 - pf.e • pow1 = pf'.z • gen1 - pf'.e • pow1 →
        pf.z • gen2 - pf.e • pow2 = pf'.z • gen2 - pf'.e • pow2 →
        ∃ w : ZMod q, pow1 = w • gen1 ∧ pow2 = w • gen2) := by
  constructor
  · show decide (chal gen1 (x • gen1) gen2 (x • gen2)
        ((u + chal gen1 (x • gen1) gen2 (x • gen2) (u • gen1) (u • gen2) * x)
            • gen1 -
          chal gen1 (x • gen1) gen2 (x • gen2) (u • gen1) (u • gen2) •
            (x • gen1))
        ((u + chal gen1 (x • gen1) gen2 (x • gen2) (u • gen1) (u • gen2) * x)
            • gen2 -
          chal gen1 (x • gen1) gen2 (x • gen2) (u • gen1) (u • gen2) •
            (x • gen2)) =
      chal gen1 (x • gen1) gen2 (x • gen2) (u • gen1) (u • gen2)) = true
    rw [add_smul, smul_smul, add_sub_cancel_right, add_smul, smul_smul,
      add_sub_cancel_right]
    exact decide_eq_true rfl
  · intro _ _ hne hc1 hc2
    have hsub : pf.e - pf'.e ≠ 0 := sub_ne_zero.mpr hne
    have d1 : (pf.z - pf'.z) • gen1 = (pf.e - pf'.e) • pow1 := by
      rw [sub_smul, sub_smul, sub_eq_sub_iff_add_eq_add]
      rw [sub_eq_sub_iff_add_eq_add] at hc1
      exact hc1.trans (add_comm _ _)
    have d2 : (pf.z - pf'.z) • gen2 = (pf.e - pf'.e) • pow2 := by
      rw [sub_smul, sub_smul, sub_eq_sub_iff_add_eq_add]
      rw [sub_eq_sub_iff_add_eq_add] at hc2
      exact hc2.trans (add_comm _ _)
    refine ⟨(pf.e - pf'.e)⁻¹ * (pf.z - pf'.z), ?_, ?_⟩
    · rw [mul_smul, d1, smul_smul, inv_mul_cancel₀ hsub, one_smul]
    · rw [mul_smul, d2, smul_smul, inv_mul_cancel₀ hsub, one_smul]

/-- Witness for C6: completeness at a concrete statement, and extraction
from two concrete accepting transcripts under the two concrete challenge
oracles `chalA` and `chalB`. -/
theorem dleq_complete_and_sound_w :
    DleqNizk.verify chalA (DleqNizk.prove chalA (1 : ZMod 5)
        ((3 : ZMod 5) • (1 : ZMod 5)) 2 ((3 : ZMod 5) • (2 : ZMod 5)) 3 1) 1
        ((3 : ZMod 5) • (1 : ZMod 5)) 2 ((3 : ZMod 5) • (2 : ZMod 5)) =
        true ∧
      ∃ w : ZMod 5, (3 : ZMod 5) = w • (1 : ZMod 5) ∧
        (1 : ZMod 5) = w • (2 : ZMod 5) := by
  have h := dleq_complete_and_sound 5 chalA chalB 1 2 3 1 3 1
    (⟨1, 4⟩ : DleqNizk 5) (⟨2, 2⟩ : DleqNizk 5)
  exact ⟨h.1,
    h.2 (by decide) (by decide) (by decide) (by decide) (by decide)⟩

/-- C7: polynomial evaluation is linear in each of the three structures:
for coefficient vectors of equal length, evaluating the coefficient-wise
sum (composition in the class group) equals the scalar sum, curve-point
sum, or class-group composition of the two separate evaluations. -/
theorem eval_linear (q : ℕ) {G C : Type} [AddCommGroup G]
    [Module (ZMod q) G] [CommMonoid C] (x : ZMod q) (l1 l2 : List (ZMod q))
    (m1 m2 : List G) (c1 c2 : List C) (hl : l1.length = l2.length)
    (hm : m1.length = m2.length) (hc : c1.length = c2.length) :
    Polynomial.eval ⟨List.zipWith (· + ·) l1 l2⟩ x =
        Polynomial.eval ⟨l1⟩ x + Polynomial.eval ⟨l2⟩ x ∧
      CurvePolynomial.eval ⟨List.zipWith (· + ·) m1 m2⟩ x =
        CurvePolynomial.eval ⟨m1⟩ x + CurvePolynomial.eval ⟨m2⟩ x ∧
      QFPolynomial.eval ⟨List.zipWith (· * ·) c1 c2⟩ x =
        QFPolynomial.eval ⟨c1⟩ x * QFPolynomial.eval ⟨c2⟩ x :=
  ⟨eval_zip_zq x l1 l2 hl, eval_zip_curve x m1 m2 hm, eval_zip_qf x c1 c2 hc⟩

/-- Witness for C7 at concrete coefficient vectors over `ZMod 5` (scalars
and curve points) and `CGrp` (class group). -/
theorem eval_linear_w :
    Polynomial.eval ⟨List.zipWith (· + ·) [(1 : ZMod 5), 2] [3, 4]⟩ 2 =
        Polynomial.eval ⟨[(1 : ZMod 5), 2]⟩ 2 +
          Polynomial.eval ⟨[3, 4]⟩ 2 ∧
      CurvePolynomial.eval ⟨List.zipWith (· + ·) [(2 : ZMod 5)] [4]⟩
          (2 : ZMod 5) =
        CurvePolynomial.eval ⟨[(2 : ZMod 5)]⟩ (2 : ZMod 5) +
          CurvePolynomial.eval ⟨[(4 : ZMod 5)]⟩ (2 : ZMod 5) ∧
      QFPolynomial.eval
          ⟨List.zipWith (· * ·) [CGrp.mk 1 2] [CGrp.mk 0 3]⟩ (2 : ZMod 5) =
        QFPolynomial.eval ⟨[CGrp.mk 1 2]⟩ (2 : ZMod 5) *
          QFPolynomial.eval ⟨[CGrp.mk 0 3]⟩ (2 : ZMod 5) :=
  eval_linear 5 2 [(1 : ZMod 5), 2] [3, 4] [(2 : ZMod 5)] [4] [CGrp.mk 1 2]
    [CGrp.mk 0 3] rfl rfl rfl

/-- C8: each sparse constructor returns a coefficient vector of length
exactly `degree + 1` in which position `i ≤ degree` holds the map value at
key `i` when present and the identity element otherwise, and entries with
id greater than `degree` are ignored (restricting the map to keys
`≤ degree` gives the same result); there is no error path. -/
theorem sparse_ctor_spec (q : ℕ) {G C : Type} [AddCommGroup G]
    [CommMonoid C] (d i : ℕ) (mz : SMap (ZMod q)) (mg : SMap G)
    (mc : SMap C) (hz : mz.Sorted) (hg : mg.Sorted) (hc : mc.Sorted)
    (hi : i ≤ d) :
    ((Polynomial.new d mz).coeffs.length = d + 1 ∧
        (Polynomial.new d mz).coeffs.getD i 0 = (SMap.find mz i).getD 0 ∧
        Polynomial.new d (mz.filter fun e => decide (e.1 ≤ d)) =
          Polynomial.new d mz) ∧
      ((CurvePolynomial.new d mg).coeffs.length = d + 1 ∧
        (CurvePolynomial.new d mg).coeffs.getD i 0 =
          (SMap.find mg i).getD 0 ∧
        CurvePolynomial.new d (mg.filter fun e => decide (e.1 ≤ d)) =
          CurvePolynomial.new d mg) ∧
      ((QFPolynomial.new d mc).coeffs.length = d + 1 ∧
        (QFPolynomial.new d mc).coeffs.getD i 1 = (SMap.find mc i).getD 1 ∧
        QFPolynomial.new d (mc.filter fun e => decide (e.1 ≤ d)) =
          QFPolynomial.new d mc) := by
  refine ⟨⟨sparseFill_length 0 d mz, sparseFill_getD 0 hz hi, ?_⟩,
    ⟨sparseFill_length 0 d mg, sparseFill_getD 0 hg hi, ?_⟩,
    ⟨sparseFill_length 1 d mc, sparseFill_getD 1 hc hi, ?_⟩⟩
  · exact congrArg Polynomial.mk (sparseFill_filter 0 d hz)
  · exact congrArg CurvePolynomial.mk (sparseFill_filter 0 d hg)
  · exact congrArg QFPolynomial.mk (sparseFill_filter 1 d hc)

/-- Witness for C8 at degree `2`, position `1`, and concrete sorted maps
with an entry beyond the degree. -/
theorem sparse_ctor_spec_w :
    (Polynomial.new 2 [((1 : ℕ), (4 : ZMod 5)), (5, 2)]).coeffs.length =
        2 + 1 ∧
      (Polynomial.new 2 [((1 : ℕ), (4 : ZMod 5)), (5, 2)]).coeffs.getD 1 0 =
        (SMap.find [((1 : ℕ), (4 : ZMod 5)), (5, 2)] 1).getD 0 ∧
      Polynomial.new 2 ([((1 : ℕ), (4 : ZMod 5)), (5, 2)].filter fun e =>
          decide (e.1 ≤ 2)) =
        Polynomial.new 2 [((1 : ℕ), (4 : ZMod 5)), (5, 2)] :=
  (sparse_ctor_spec 5 2 1 [((1 : ℕ), (4 : ZMod 5)), (5, 2)]
    [((0 : ℕ), (3 : ZMod 5))] [((1 : ℕ), CGrp.mk 2 0)] (by decide)
    (by decide) (by decide) (by decide)).1

end RORTE
